import Mathlib

/-!
# A verification model of the elvish interactive editing core

This file embeds, in Lean, the parts of the repository that the spec's
claims are about:

* `cli/el/codearea/codearea.go` — the code-editing widget: its
  `CodeBuffer`-carrying state, `handlePasteSetting` and `handleKeyEvent`
  (insertion tracking, abbreviation expansion, bracketed-paste
  aggregation, submit, backspace);
* `cli/clitypes/widget.go` — the generic overlay compositor
  `AddOverlayHandler`;
* `cli/app_spec.go` — the `Highlighter` and `Prompt` interface shapes.

Go strings are modelled as byte lists (`Str`), runes as natural-number
codepoints, and the relevant pieces of the Go standard library
(`utf8.EncodeRune`, `utf8.DecodeLastRuneInString`) as executable
functions over byte lists.  Effects of the handlers that the claims
observe (calls of the submit callback, invocations of `resetInserts`)
are returned as explicit outputs of the step functions.
-/

set_option maxHeartbeats 1000000

namespace Elvish

/-- A Go string: a sequence of bytes.  All bytes produced by the model
are `< 256`. -/
abbrev Str := List Nat

/-! ## The Go `unicode/utf8` standard-library model -/

/-- UTF-8 encoding of a codepoint, as Go's `utf8.EncodeRune` (which is
also what the conversion `string(r)` performs): surrogates
(`0xD800`–`0xDFFF`) and values above `0x10FFFF` encode as the
replacement character U+FFFD, i.e. bytes `EF BF BD`.  The bit
operations of the Go source are rendered arithmetically:
`0xC0 | (r >> 6)` is `0xC0 + r / 64`, `0x80 | (r & 0x3F)` is
`0x80 + r % 64`, and so on. -/
def encodeRune (r : Nat) : Str :=
  if r < 0x80 then [r]
  else if r < 0x800 then [0xC0 + r / 64, 0x80 + r % 64]
  else if 0xD800 ≤ r ∧ r < 0xE000 then [0xEF, 0xBF, 0xBD]
  else if r < 0x10000 then [0xE0 + r / 4096, 0x80 + r / 64 % 64, 0x80 + r % 64]
  else if r < 0x110000 then
    [0xF0 + r / 262144, 0x80 + r / 4096 % 64, 0x80 + r / 64 % 64, 0x80 + r % 64]
  else [0xEF, 0xBF, 0xBD]

/-- Byte-wise UTF-8 encoding of a sequence of codepoints. -/
def encodeStr (rs : List Nat) : Str := (rs.map encodeRune).flatten

/-- A UTF-8 continuation byte (`0x80`–`0xBF`). -/
def isCont (b : Nat) : Bool := 0x80 ≤ b && b ≤ 0xBF

/-- Go's `utf8.RuneStart`: `b & 0xC0 != 0x80`, rendered arithmetically
for bytes `b < 0x100`: every byte except a continuation byte. -/
def isRuneStart (b : Nat) : Bool := !(isCont b)

/-- The row of Go `utf8`'s `first` / `acceptRanges` tables for a leading
byte `b`: `some (size, lo, hi)` gives the encoded size and the accepted
range of the first continuation byte; `none` marks a byte that cannot
lead a multi-byte sequence (`0x80`–`0xC1`, `0xF5` and above). -/
def leadInfo (b : Nat) : Option (Nat × Nat × Nat) :=
  if 0xC2 ≤ b ∧ b ≤ 0xDF then some (2, 0x80, 0xBF)
  else if b = 0xE0 then some (3, 0xA0, 0xBF)
  else if b = 0xED then some (3, 0x80, 0x9F)
  else if 0xE1 ≤ b ∧ b ≤ 0xEF then some (3, 0x80, 0xBF)
  else if b = 0xF0 then some (4, 0x90, 0xBF)
  else if 0xF1 ≤ b ∧ b ≤ 0xF3 then some (4, 0x80, 0xBF)
  else if b = 0xF4 then some (4, 0x80, 0x8F)
  else none

/-- The `size` component of Go's `utf8.DecodeRune`: `0` on the empty
string, `1` on ASCII and on every malformed head, otherwise the length
of the well-formed leading sequence. -/
def decodeRuneSize (p : Str) : Nat :=
  match p with
  | [] => 0
  | b :: rest =>
    if b < 0x80 then 1
    else
      match leadInfo b with
      | none => 1
      | some (sz, lo, hi) =>
        if rest.length + 1 < sz then 1
        else
          let b1 := rest.getD 0 0
          if b1 < lo ∨ hi < b1 then 1
          else if sz = 2 then 2
          else if isCont (rest.getD 1 0) = false then 1
          else if sz = 3 then 3
          else if isCont (rest.getD 2 0) = false then 1
          else 4

/-- The backward scan of Go's `utf8.DecodeLastRuneInString`: from the
second-to-last byte, walk back at most to `lim = max(len - UTFMax, 0)`
looking for a rune-start byte; when none is found the start index ends
at `lim - 1`, and a negative result is clamped to `0` (Go's
`if start < 0 { start = 0 }`). -/
def lastStart (s : Str) : Nat :=
  let e := s.length
  let lim : Int := max ((e : Int) - 4) 0
  (if (e : Int) - 2 ≥ lim ∧ isRuneStart (s.getD (e - 2) 0) = true then (e : Int) - 2
   else if (e : Int) - 3 ≥ lim ∧ isRuneStart (s.getD (e - 3) 0) = true then (e : Int) - 3
   else if (e : Int) - 4 ≥ lim ∧ isRuneStart (s.getD (e - 4) 0) = true then (e : Int) - 4
   else lim - 1).toNat

/-- The `size` component of Go's `utf8.DecodeLastRuneInString`: `0` on
the empty string, `1` on an ASCII last byte, otherwise decode forwards
from the backward-scanned start index and fall back to size `1` when
that forward decode does not exactly cover the scanned tail. -/
def decodeLastRuneSize (s : Str) : Nat :=
  let e := s.length
  if e = 0 then 0
  else if s.getD (e - 1) 0 < 0x80 then 1
  else
    let startN : Nat := lastStart s
    let sz := decodeRuneSize (s.drop startN)
    if startN + sz ≠ e then 1 else sz

/-! ## The codearea data model (`cli/el/codearea`) -/

/-- The code buffer of the codearea widget: the edited text and the
cursor (`Dot`), a byte offset into `Content`.  Equality is structural,
as for the Go struct. -/
structure CodeBuffer where
  Content : Str
  Dot : Nat
deriving DecidableEq, Repr

/-- Modelled from the spec: `CodeBuffer.InsertAtDot` lives in the
codearea package's state file, which is not among the given sources.
Per spec §4.1, `insert_at_dot(text)` splices `text` into `content` at
`dot` and advances `dot` by `length(text)`. -/
def CodeBuffer.insertAtDot (c : CodeBuffer) (t : Str) : CodeBuffer :=
  { Content := c.Content.take c.Dot ++ t ++ c.Content.drop c.Dot
    Dot := c.Dot + t.length }

/-- Modelled from the spec: the codearea `State` struct is declared in a
file not among the given sources; per spec §3 it owns exactly one
text buffer (plus editor-visible extras that no claim observes). -/
structure State where
  CodeBuffer : CodeBuffer
deriving DecidableEq, Repr

/-- A key event, as `ui.Key`: a rune (Go `rune` is a signed 32-bit
integer; named function keys are negative values) and modifier bits
(`0` means unmodified). -/
structure Key where
  Rune : Int
  Mod : Nat
deriving DecidableEq, Repr

/-- `ui.K(r)`: the unmodified key carrying rune `r`. -/
def K (r : Int) : Key := { Rune := r, Mod := 0 }

/-- Modelled from the spec: the `ui` package (not among the given
sources) names Backspace as a key distinct from every graphic
codepoint; it is the ASCII DEL alias `0x7F`. -/
def uiBackspace : Int := 0x7F

/-- `isFuncKey` as computed at the top of `handleKeyEvent`:
`key.Mod != 0 || key.Rune < 0`. -/
def Key.isFuncKey (k : Key) : Bool := k.Mod ≠ 0 || k.Rune < 0

/-- The configuration of the codearea widget, restricted to what the
modelled handlers consume.  `Abbreviations` is the enumeration order in
which the Go `Abbreviations` callback visits its pairs; `QuotePaste` is
the value the `QuotePaste` callback returns; `Quote` models
`parse.Quote` (an external collaborator, opaque per spec §6); and
`IsGraphic` models `unicode.IsGraphic` from the Go standard library. -/
structure Config where
  Abbreviations : List (Str × Str)
  QuotePaste : Bool
  Quote : Str → Str
  IsGraphic : Nat → Bool

/-- The mutable state of the codearea widget: the public `State` plus
the private insertion-tracking and pasting fields. -/
structure widget where
  State : State
  inserts : Str
  lastCodeBuffer : CodeBuffer
  pasting : Bool
  pasteBuffer : Str
deriving DecidableEq, Repr

/-- `widget.resetInserts`. -/
def widget.resetInserts (w : widget) : widget :=
  { w with inserts := [], lastCodeBuffer := { Content := [], Dot := 0 } }

/-- A fresh widget over an initial buffer, as built by
`NewWithState`: empty insertion tracking, not pasting, empty paste
buffer. -/
def newWithState (c : CodeBuffer) : widget :=
  { State := { CodeBuffer := c }
    inserts := []
    lastCodeBuffer := { Content := [], Dot := 0 }
    pasting := false
    pasteBuffer := [] }

/-- The observable outcome of one handler call: the updated widget, the
handled flag, the contents passed to the `OnSubmit` callback (in call
order), and — as ghost instrumentation — the number of times the
handler invoked `resetInserts`. -/
structure HandleResult where
  w : widget
  handled : Bool
  submitted : List Str
  resets : Nat
deriving Repr

/-- `widget.handlePasteSetting`: reset insertion tracking; on `start`
enter the pasting state, otherwise take the accumulated text, quote it
when `QuotePaste()` holds, insert it at dot in one operation, leave the
pasting state and clear the accumulator.  Always reports handled. -/
def handlePasteSetting (cfg : Config) (w : widget) (start : Bool) : HandleResult :=
  let w := w.resetInserts
  if start then
    { w := { w with pasting := true }, handled := true, submitted := [], resets := 1 }
  else
    let text := w.pasteBuffer
    let text := if cfg.QuotePaste then cfg.Quote text else text
    { w := { w with
              State := { CodeBuffer := w.State.CodeBuffer.insertAtDot text }
              pasting := false
              pasteBuffer := [] }
      handled := true, submitted := [], resets := 1 }

/-- The abbreviation search of `handleKeyEvent`: fold the enumeration
order of the `Abbreviations` callback, replacing the current candidate
`(abbr, full)` whenever the visited pair's abbreviation is a suffix of
`inserts` and is strictly longer than the current candidate's.  The
fold starts from the pair of empty strings, as the Go locals do. -/
def pickAbbr (inserts : Str) (l : List (Str × Str)) : Str × Str :=
  l.foldl
    (fun acc p =>
      if p.1.isSuffixOf inserts && decide (acc.1.length < p.1.length) then p else acc)
    ([], [])

/-- `widget.handleKeyEvent`.  The branches follow the Go source in
order: the pasting state (function keys dropped, other runes appended
to the paste buffer via `WriteRune`); the `'\n'` case (reset, submit);
the Backspace case (reset, chop the last rune before dot as measured by
`utf8.DecodeLastRuneInString`); the default case (function keys and
non-graphic runes reset and are unhandled; a graphic rune is inserted
at dot, appended to `inserts` — after a reset when the buffer changed
since the last tracked insert — and the longest abbreviation suffix of
`inserts`, first wins on ties, is expanded). -/
def handleKeyEvent (cfg : Config) (w : widget) (key : Key) : HandleResult :=
  if w.pasting then
    if key.isFuncKey then
      { w := w, handled := true, submitted := [], resets := 0 }
    else
      { w := { w with pasteBuffer := w.pasteBuffer ++ encodeRune key.Rune.toNat }
        handled := true, submitted := [], resets := 0 }
  else if key = K 10 then
    { w := w.resetInserts, handled := true
      submitted := [w.State.CodeBuffer.Content], resets := 1 }
  else if key = K uiBackspace then
    let c := w.State.CodeBuffer
    let chop := decodeLastRuneSize (c.Content.take c.Dot)
    { w := { w.resetInserts with
              State := { CodeBuffer :=
                { Content := c.Content.take (c.Dot - chop) ++ c.Content.drop c.Dot
                  Dot := c.Dot - chop } } }
      handled := true, submitted := [], resets := 1 }
  else if key.isFuncKey || !cfg.IsGraphic key.Rune.toNat then
    { w := w.resetInserts, handled := false, submitted := [], resets := 1 }
  else
    let r0 := if w.lastCodeBuffer = w.State.CodeBuffer then 0 else 1
    let w := if w.lastCodeBuffer = w.State.CodeBuffer then w else w.resetInserts
    let s := encodeRune key.Rune.toNat
    let buf := w.State.CodeBuffer.insertAtDot s
    let ins := w.inserts ++ s
    let pick := pickAbbr ins cfg.Abbreviations
    if 0 < pick.1.length then
      { w := { w with
                State := { CodeBuffer :=
                  { Content :=
                      buf.Content.take (buf.Dot - pick.1.length) ++ pick.2 ++
                        buf.Content.drop buf.Dot
                    Dot := buf.Dot - pick.1.length + pick.2.length } }
                inserts := []
                lastCodeBuffer := { Content := [], Dot := 0 } }
        handled := true, submitted := [], resets := r0 + 1 }
    else
      { w := { w with
                State := { CodeBuffer := buf }
                inserts := ins
                lastCodeBuffer := buf }
        handled := true, submitted := [], resets := r0 }

/-- The events the widget's own handling consumes: a bracketed-paste
boundary (`term.PasteSetting`) or a key event (`term.KeyEvent`). -/
inductive Event where
  | pasteSetting (start : Bool)
  | key (k : Key)
deriving DecidableEq, Repr

/-- relevant dispatch of `widget.Handle` onto the widget's own
handlers (the configured overlay handler, which cannot touch the
widget's state, is modelled separately by the compositor below). -/
def Handle (cfg : Config) (w : widget) (e : Event) : HandleResult :=
  match e with
  | Event.pasteSetting start => handlePasteSetting cfg w start
  | Event.key k => handleKeyEvent cfg w k

/-- The widget after one event, discarding the observable outputs. -/
def stepW (cfg : Config) (w : widget) (e : Event) : widget :=
  (Handle cfg w e).w

/-- The widget after a sequence of events. -/
def runW (cfg : Config) (w : widget) (es : List Event) : widget :=
  es.foldl (stepW cfg) w

/-- The total number of `resetInserts` invocations a sequence of events
performs. -/
def runResets (cfg : Config) (w : widget) (es : List Event) : Nat :=
  match es with
  | [] => 0
  | e :: es => (Handle cfg w e).resets + runResets cfg (stepW cfg w e) es

/-! ## The generic compositor (`cli/clitypes/widget.go`) -/

/-- A `clitypes.Handler` with internal state `τ`: Go's `Handle` method
may mutate the receiver, so it is modelled as a state transformer
returning the new state and the handled flag. -/
structure GHandler (τ E : Type) where
  Handle : τ → E → τ × Bool

/-- A `clitypes.Widget` with internal state `σ`: a renderer plus a
handler. -/
structure GWidget (σ E R : Type) where
  Render : σ → Nat → Nat → R
  Handle : σ → E → σ × Bool

/-- `clitypes.AddOverlayHandler`: the composite renders exactly as the
base, and handles by giving the overlay first refusal —
`w.overlay.Handle(event) || w.base.Handle(event)` with Go's
short-circuit: the base's handler runs only when the overlay reports
not handled. -/
def AddOverlayHandler (base : GWidget σ E R) (overlay : GHandler τ E) :
    GWidget (σ × τ) E R :=
  { Render := fun s width height => base.Render s.1 width height
    Handle := fun s e =>
      let o := overlay.Handle s.2 e
      if o.2 then ((s.1, o.1), true)
      else
        let b := base.Handle s.1 e
        ((b.1, o.1), b.2) }

/-! ## The async-source interface shapes (`cli/app_spec.go`) -/

/-- The operations the spec's `AsyncSource` contract names. -/
inductive AsyncOp where
  | get
  | trigger
  | lateUpdates
deriving DecidableEq, Repr

/-- The method set of the `Highlighter` interface as declared in
`cli/app_spec.go`: `Get(code string) (styled.Text, []error)` and
`LateUpdates() <-chan styled.Text`. -/
def highlighterOps : List AsyncOp := [AsyncOp.get, AsyncOp.lateUpdates]

/-- The method set of the `Prompt` interface as declared in
`cli/app_spec.go`: `Trigger(force bool)`, `Get() styled.Text` and
`LateUpdates() <-chan styled.Text`. -/
def promptOps : List AsyncOp := [AsyncOp.trigger, AsyncOp.get, AsyncOp.lateUpdates]

/-- Modelled from the spec: the three operations of the shared
`AsyncSource` shape of spec §4.2 — `get`, `trigger(force)` and
`late_updates`. -/
def asyncSourceOps : List AsyncOp := [AsyncOp.get, AsyncOp.trigger, AsyncOp.lateUpdates]

/-! ## Concrete instances used by the examples and witnesses -/

/-- `unicode.IsGraphic` restricted to the ASCII range, where it is the
printable characters `0x20`–`0x7E`; the concrete examples below only
type ASCII. -/
def asciiGraphic (r : Nat) : Bool := 0x20 ≤ r && r ≤ 0x7E

/-- The configuration of the longest-match abbreviation example:
abbreviations `"ex" → "example"` then `"x" → "exchange"`, in that
enumeration order, no paste quoting. -/
def cfgEx : Config :=
  { Abbreviations :=
      [([101, 120], [101, 120, 97, 109, 112, 108, 101]),
       ([120], [101, 120, 99, 104, 97, 110, 103, 101])]
    QuotePaste := false
    Quote := fun s => s
    IsGraphic := asciiGraphic }

/-- The configuration of the paste-quoting examples: the quoting
predicate returns true and the quote function wraps its argument in
single quotes (byte `39`). -/
def cfgQ : Config :=
  { Abbreviations := []
    QuotePaste := true
    Quote := fun s => [39] ++ s ++ [39]
    IsGraphic := asciiGraphic }

/-- A fresh widget over the empty buffer. -/
def w0 : widget := newWithState { Content := [], Dot := 0 }

/-! ## The abbreviation-selection characterisation -/

/-- The abbreviation fold of `handleKeyEvent`, generalised over its
accumulator. -/
def pickAbbrGo (ins : Str) (acc : Str × Str) (l : List (Str × Str)) : Str × Str :=
  l.foldl
    (fun acc p =>
      if p.1.isSuffixOf ins && decide (acc.1.length < p.1.length) then p else acc)
    acc

lemma pickAbbr_eq_go (ins : Str) (l : List (Str × Str)) :
    pickAbbr ins l = pickAbbrGo ins ([], []) l := rfl

/-- What the abbreviation fold computes: the result dominates the
accumulator and every matching pair in length, and — unless it is the
accumulator itself — it occurs in the list, matches, and every
matching pair enumerated before it is strictly shorter (so the first
pair of maximal length wins ties). -/
lemma pickAbbrGo_spec (ins : Str) (l : List (Str × Str)) (acc : Str × Str) :
    acc.1.length ≤ (pickAbbrGo ins acc l).1.length ∧
      (∀ q ∈ l, q.1 <:+ ins → q.1.length ≤ (pickAbbrGo ins acc l).1.length) ∧
      (pickAbbrGo ins acc l = acc ∨
        ∃ l1 l2, l = l1 ++ pickAbbrGo ins acc l :: l2 ∧
          (pickAbbrGo ins acc l).1 <:+ ins ∧
          acc.1.length < (pickAbbrGo ins acc l).1.length ∧
          ∀ q ∈ l1, q.1 <:+ ins → q.1.length < (pickAbbrGo ins acc l).1.length) := by
  induction l generalizing acc with
  | nil => exact ⟨le_refl _, by simp, Or.inl rfl⟩
  | cons p t ih =>
    by_cases h : (p.1.isSuffixOf ins && decide (acc.1.length < p.1.length)) = true
    · rw [Bool.and_eq_true] at h
      have hsuf : p.1 <:+ ins := List.isSuffixOf_iff_suffix.mp h.1
      have hlt : acc.1.length < p.1.length := of_decide_eq_true h.2
      have hstep : pickAbbrGo ins acc (p :: t) = pickAbbrGo ins p t := by
        show pickAbbrGo ins
          (if p.1.isSuffixOf ins && decide (acc.1.length < p.1.length) then p else acc) t = _
        rw [if_pos (Bool.and_eq_true _ _ ▸ h)]
      obtain ⟨ih1, ih2, ih3⟩ := ih p
      rw [hstep]
      refine ⟨le_of_lt (lt_of_lt_of_le hlt ih1), ?_, ?_⟩
      · intro q hq hqsuf
        rcases List.mem_cons.mp hq with rfl | hq
        · exact ih1
        · exact ih2 q hq hqsuf
      · rcases ih3 with heq | ⟨t1, t2, ht, hs, hl, hall⟩
        · exact Or.inr ⟨[], t, by rw [heq]; rfl, by rw [heq]; exact hsuf,
            by rw [heq]; exact hlt, by simp⟩
        · refine Or.inr ⟨p :: t1, t2, congrArg (List.cons p) ht, hs,
            lt_trans hlt hl, ?_⟩
          intro q hq hqs
          rcases List.mem_cons.mp hq with rfl | hq
          · exact hl
          · exact hall q hq hqs
    · have hstep : pickAbbrGo ins acc (p :: t) = pickAbbrGo ins acc t := by
        show pickAbbrGo ins
          (if p.1.isSuffixOf ins && decide (acc.1.length < p.1.length) then p else acc) t = _
        rw [if_neg h]
      have hple : p.1 <:+ ins → p.1.length ≤ acc.1.length := by
        intro hqs
        by_contra hgt
        exact h (by
          rw [Bool.and_eq_true]
          exact ⟨List.isSuffixOf_iff_suffix.mpr hqs, decide_eq_true (Nat.lt_of_not_le hgt)⟩)
      obtain ⟨ih1, ih2, ih3⟩ := ih acc
      rw [hstep]
      refine ⟨ih1, ?_, ?_⟩
      · intro q hq hqsuf
        rcases List.mem_cons.mp hq with rfl | hq
        · exact le_trans (hple hqsuf) ih1
        · exact ih2 q hq hqsuf
      · rcases ih3 with heq | ⟨t1, t2, ht, hs, hl, hall⟩
        · exact Or.inl heq
        · refine Or.inr ⟨p :: t1, t2, congrArg (List.cons p) ht, hs, hl, ?_⟩
          intro q hq hqs
          rcases List.mem_cons.mp hq with rfl | hq
          · exact lt_of_le_of_lt (hple hqs) hl
          · exact hall q hq hqs

/-! ## Facts about the UTF-8 encoding and decoding model -/

lemma isRuneStart_of_ge (b : Nat) (h : 0xC0 ≤ b) : isRuneStart b = true := by
  simp only [isRuneStart, isCont, Bool.not_eq_true']
  simp only [Bool.and_eq_false_iff, decide_eq_false_iff_not, not_le]
  omega

lemma isCont_of (b : Nat) (h1 : 0x80 ≤ b) (h2 : b ≤ 0xBF) : isCont b = true := by
  simp only [isCont, Bool.and_eq_true, decide_eq_true_iff]
  omega

lemma isRuneStart_false_of_cont (b : Nat) (h : isCont b = true) :
    isRuneStart b = false := by
  simp [isRuneStart, h]

lemma cont_ge (b : Nat) (h : isCont b = true) : 0x80 ≤ b ∧ b ≤ 0xBF := by
  simpa only [isCont, Bool.and_eq_true, decide_eq_true_iff] using h

lemma decodeRuneSize_two (b0 b1 lo hi : Nat) (h : leadInfo b0 = some (2, lo, hi))
    (hb0 : 0x80 ≤ b0) (h1 : lo ≤ b1) (h2 : b1 ≤ hi) :
    decodeRuneSize [b0, b1] = 2 := by
  simp only [decodeRuneSize, h, List.length_cons, List.length_nil, List.getD_cons_zero,
    List.getD_cons_succ]
  rw [if_neg (by omega), if_neg (by omega), if_neg (by omega)]
  simp

lemma decodeRuneSize_three (b0 b1 b2 lo hi : Nat) (h : leadInfo b0 = some (3, lo, hi))
    (hb0 : 0x80 ≤ b0) (h1 : lo ≤ b1) (h2 : b1 ≤ hi)
    (h3 : isCont b2 = true) :
    decodeRuneSize [b0, b1, b2] = 3 := by
  simp only [decodeRuneSize, h, List.length_cons, List.length_nil, List.getD_cons_zero,
    List.getD_cons_succ]
  rw [if_neg (by omega), if_neg (by omega), if_neg (by omega), if_neg (by omega)]
  rw [h3]
  simp

lemma decodeRuneSize_four (b0 b1 b2 b3 lo hi : Nat) (h : leadInfo b0 = some (4, lo, hi))
    (hb0 : 0x80 ≤ b0) (h1 : lo ≤ b1) (h2 : b1 ≤ hi)
    (h3 : isCont b2 = true) (h4 : isCont b3 = true) :
    decodeRuneSize [b0, b1, b2, b3] = 4 := by
  simp only [decodeRuneSize, h, List.length_cons, List.length_nil, List.getD_cons_zero,
    List.getD_cons_succ]
  rw [if_neg (by omega), if_neg (by omega), if_neg (by omega), if_neg (by omega)]
  rw [h3]
  simp [h4]

/-- The byte-level shape of `encodeRune`: nonempty, a rune-start head
(ASCII when single-byte), continuation bytes after the head, forward
decode recovering exactly its length, and length at most `UTFMax`. -/
lemma encodeRune_spec (r : Nat) :
    encodeRune r ≠ [] ∧
      (1 < (encodeRune r).length → isRuneStart ((encodeRune r).getD 0 0) = true) ∧
      ((encodeRune r).length = 1 → (encodeRune r).getD 0 0 < 0x80) ∧
      (∀ i, 1 ≤ i → i < (encodeRune r).length →
        isCont ((encodeRune r).getD i 0) = true) ∧
      decodeRuneSize (encodeRune r) = (encodeRune r).length ∧
      (encodeRune r).length ≤ 4 := by
  unfold encodeRune
  split_ifs with h1 h2 h3 h4 h5
  · refine ⟨by simp, by simp, fun _ => ?_, ?_, ?_, by simp⟩
    · simpa using h1
    · intro i hi1 hi2
      simp only [List.length_cons, List.length_nil] at hi2
      omega
    · simp [decodeRuneSize, h1]
  · refine ⟨by simp,
      fun _ => by simp only [List.getD_cons_zero]; exact isRuneStart_of_ge _ (by omega),
      by simp, ?_, ?_, by simp⟩
    · intro i hi1 hi2
      simp only [List.length_cons, List.length_nil] at hi2
      interval_cases i
      · simp only [List.getD_cons_succ, List.getD_cons_zero]
        exact isCont_of _ (by omega) (by omega)
    · exact decodeRuneSize_two _ _ 0x80 0xBF
        (by unfold leadInfo; rw [if_pos (by omega)]) (by omega) (by omega) (by omega)
  · refine ⟨by simp, fun _ => by decide, by simp, ?_, by decide, by simp⟩
    intro i hi1 hi2
    simp only [List.length_cons, List.length_nil] at hi2
    interval_cases i <;> decide
  · refine ⟨by simp,
      fun _ => by simp only [List.getD_cons_zero]; exact isRuneStart_of_ge _ (by omega),
      by simp, ?_, ?_, by simp⟩
    · intro i hi1 hi2
      simp only [List.length_cons, List.length_nil] at hi2
      interval_cases i <;> simp only [List.getD_cons_succ, List.getD_cons_zero] <;>
        exact isCont_of _ (by omega) (by omega)
    · by_cases hc0 : r / 4096 = 0
      · exact decodeRuneSize_three _ _ _ 0xA0 0xBF
          (by unfold leadInfo
              rw [if_neg (by omega), if_pos (by omega)])
          (by omega) (by omega) (by omega) (isCont_of _ (by omega) (by omega))
      · by_cases hc13 : r / 4096 = 13
        · exact decodeRuneSize_three _ _ _ 0x80 0x9F
            (by unfold leadInfo
                rw [if_neg (by omega), if_neg (by omega), if_pos (by omega)])
            (by omega) (by omega) (by omega) (isCont_of _ (by omega) (by omega))
        · exact decodeRuneSize_three _ _ _ 0x80 0xBF
            (by unfold leadInfo
                rw [if_neg (by omega), if_neg (by omega), if_neg (by omega),
                  if_pos (by omega)])
            (by omega) (by omega) (by omega) (isCont_of _ (by omega) (by omega))
  · refine ⟨by simp,
      fun _ => by simp only [List.getD_cons_zero]; exact isRuneStart_of_ge _ (by omega),
      by simp, ?_, ?_, by simp⟩
    · intro i hi1 hi2
      simp only [List.length_cons, List.length_nil] at hi2
      interval_cases i <;> simp only [List.getD_cons_succ, List.getD_cons_zero] <;>
        exact isCont_of _ (by omega) (by omega)
    · by_cases hc0 : r / 262144 = 0
      · exact decodeRuneSize_four _ _ _ _ 0x90 0xBF
          (by unfold leadInfo
              rw [if_neg (by omega), if_neg (by omega), if_neg (by omega),
                if_neg (by omega), if_pos (by omega)])
          (by omega) (by omega) (by omega)
          (isCont_of _ (by omega) (by omega)) (isCont_of _ (by omega) (by omega))
      · by_cases hc4 : r / 262144 = 4
        · exact decodeRuneSize_four _ _ _ _ 0x80 0x8F
            (by unfold leadInfo
                rw [if_neg (by omega), if_neg (by omega), if_neg (by omega),
                  if_neg (by omega), if_neg (by omega), if_neg (by omega),
                  if_pos (by omega)])
            (by omega) (by omega) (by omega)
            (isCont_of _ (by omega) (by omega)) (isCont_of _ (by omega) (by omega))
        · exact decodeRuneSize_four _ _ _ _ 0x80 0xBF
            (by unfold leadInfo
                rw [if_neg (by omega), if_neg (by omega), if_neg (by omega),
                  if_neg (by omega), if_neg (by omega), if_pos (by omega)])
            (by omega) (by omega) (by omega)
            (isCont_of _ (by omega) (by omega)) (isCont_of _ (by omega) (by omega))
  · refine ⟨by simp, fun _ => by decide, by simp, ?_, by decide, by simp⟩
    intro i hi1 hi2
    simp only [List.length_cons, List.length_nil] at hi2
    interval_cases i <;> decide

lemma lastStart_append_two (A : Str) (b0 b1 : Nat) (hrs0 : isRuneStart b0 = true) :
    lastStart (A ++ [b0, b1]) = A.length := by
  have he : (A ++ [b0, b1]).length = A.length + 2 := by simp
  have hg0 : (A ++ [b0, b1]).getD (A.length + 2 - 2) 0 = b0 := by
    rw [show A.length + 2 - 2 = A.length + 0 from by omega]
    rw [List.getD_append_right _ _ _ _ (by omega)]
    simp
  unfold lastStart
  dsimp only
  rw [he, hg0]
  rw [if_pos ⟨max_le (by omega) (by omega), hrs0⟩]
  omega

lemma lastStart_append_three (A : Str) (b0 b1 b2 : Nat)
    (hrs0 : isRuneStart b0 = true) (hb1 : isCont b1 = true) :
    lastStart (A ++ [b0, b1, b2]) = A.length := by
  have he : (A ++ [b0, b1, b2]).length = A.length + 3 := by simp
  have hg1 : (A ++ [b0, b1, b2]).getD (A.length + 3 - 2) 0 = b1 := by
    rw [show A.length + 3 - 2 = A.length + 1 from by omega]
    rw [List.getD_append_right _ _ _ _ (by omega)]
    simp
  have hg0 : (A ++ [b0, b1, b2]).getD (A.length + 3 - 3) 0 = b0 := by
    rw [show A.length + 3 - 3 = A.length + 0 from by omega]
    rw [List.getD_append_right _ _ _ _ (by omega)]
    simp
  unfold lastStart
  dsimp only
  rw [he, hg1, hg0]
  rw [if_neg (fun hc => by
    rw [isRuneStart_false_of_cont b1 hb1] at hc
    exact absurd hc.2 (by simp))]
  rw [if_pos ⟨max_le (by omega) (by omega), hrs0⟩]
  omega

lemma lastStart_append_four (A : Str) (b0 b1 b2 b3 : Nat)
    (hrs0 : isRuneStart b0 = true) (hb1 : isCont b1 = true)
    (hb2 : isCont b2 = true) :
    lastStart (A ++ [b0, b1, b2, b3]) = A.length := by
  have he : (A ++ [b0, b1, b2, b3]).length = A.length + 4 := by simp
  have hg2 : (A ++ [b0, b1, b2, b3]).getD (A.length + 4 - 2) 0 = b2 := by
    rw [show A.length + 4 - 2 = A.length + 2 from by omega]
    rw [List.getD_append_right _ _ _ _ (by omega)]
    simp
  have hg1 : (A ++ [b0, b1, b2, b3]).getD (A.length + 4 - 3) 0 = b1 := by
    rw [show A.length + 4 - 3 = A.length + 1 from by omega]
    rw [List.getD_append_right _ _ _ _ (by omega)]
    simp
  have hg0 : (A ++ [b0, b1, b2, b3]).getD (A.length + 4 - 4) 0 = b0 := by
    rw [show A.length + 4 - 4 = A.length + 0 from by omega]
    rw [List.getD_append_right _ _ _ _ (by omega)]
    simp
  unfold lastStart
  dsimp only
  rw [he, hg2, hg1, hg0]
  rw [if_neg (fun hc => by
    rw [isRuneStart_false_of_cont b2 hb2] at hc
    exact absurd hc.2 (by simp))]
  rw [if_neg (fun hc => by
    rw [isRuneStart_false_of_cont b1 hb1] at hc
    exact absurd hc.2 (by simp))]
  rw [if_pos ⟨max_le (by omega) (by omega), hrs0⟩]
  omega

lemma decodeLastRuneSize_append (A p : Str)
    (h1 : p ≠ [])
    (hhead : 1 < p.length → isRuneStart (p.getD 0 0) = true)
    (hasc : p.length = 1 → p.getD 0 0 < 0x80)
    (hcont : ∀ i, 1 ≤ i → i < p.length → isCont (p.getD i 0) = true)
    (hdec : decodeRuneSize p = p.length)
    (hlen : p.length ≤ 4) :
    decodeLastRuneSize (A ++ p) = p.length := by
  match p, h1 with
  | [b0], _ =>
    have hb0 : b0 < 0x80 := hasc rfl
    have he : (A ++ [b0]).length = A.length + 1 := by simp
    have hg : (A ++ [b0]).getD (A.length + 1 - 1) 0 = b0 := by
      rw [show A.length + 1 - 1 = A.length + 0 from by omega]
      rw [List.getD_append_right _ _ _ _ (by omega)]
      simp
    unfold decodeLastRuneSize
    dsimp only
    rw [he, if_neg (by omega), hg, if_pos hb0]
    rfl
  | [b0, b1], _ =>
    have hb1 := cont_ge b1 (hcont 1 (by omega) (by simp))
    have hrs0 : isRuneStart b0 = true := hhead (by simp)
    have he : (A ++ [b0, b1]).length = A.length + 2 := by simp
    have hg : (A ++ [b0, b1]).getD (A.length + 2 - 1) 0 = b1 := by
      rw [show A.length + 2 - 1 = A.length + 1 from by omega]
      rw [List.getD_append_right _ _ _ _ (by omega)]
      simp
    unfold decodeLastRuneSize
    dsimp only
    rw [he, if_neg (by omega), hg, if_neg (by omega)]
    rw [lastStart_append_two A b0 b1 hrs0, List.drop_left, hdec]
    simp only [List.length_cons, List.length_nil]
    rw [if_neg (by omega)]
  | [b0, b1, b2], _ =>
    have hb1c : isCont b1 = true := hcont 1 (by omega) (by simp)
    have hb2 := cont_ge b2 (hcont 2 (by omega) (by simp))
    have hrs0 : isRuneStart b0 = true := hhead (by simp)
    have he : (A ++ [b0, b1, b2]).length = A.length + 3 := by simp
    have hg : (A ++ [b0, b1, b2]).getD (A.length + 3 - 1) 0 = b2 := by
      rw [show A.length + 3 - 1 = A.length + 2 from by omega]
      rw [List.getD_append_right _ _ _ _ (by omega)]
      simp
    unfold decodeLastRuneSize
    dsimp only
    rw [he, if_neg (by omega), hg, if_neg (by omega)]
    rw [lastStart_append_three A b0 b1 b2 hrs0 hb1c, List.drop_left, hdec]
    simp only [List.length_cons, List.length_nil]
    rw [if_neg (by omega)]
  | [b0, b1, b2, b3], _ =>
    have hb1c : isCont b1 = true := hcont 1 (by omega) (by simp)
    have hb2c : isCont b2 = true := hcont 2 (by omega) (by simp)
    have hb3 := cont_ge b3 (hcont 3 (by omega) (by simp))
    have hrs0 : isRuneStart b0 = true := hhead (by simp)
    have he : (A ++ [b0, b1, b2, b3]).length = A.length + 4 := by simp
    have hg : (A ++ [b0, b1, b2, b3]).getD (A.length + 4 - 1) 0 = b3 := by
      rw [show A.length + 4 - 1 = A.length + 3 from by omega]
      rw [List.getD_append_right _ _ _ _ (by omega)]
      simp
    unfold decodeLastRuneSize
    dsimp only
    rw [he, if_neg (by omega), hg, if_neg (by omega)]
    rw [lastStart_append_four A b0 b1 b2 b3 hrs0 hb1c hb2c, List.drop_left, hdec]
    simp only [List.length_cons, List.length_nil]
    rw [if_neg (by omega)]
  | b0 :: b1 :: b2 :: b3 :: b4 :: rest, _ =>
    exfalso
    simp only [List.length_cons] at hlen
    omega

/-- Decoding the last rune of any byte string that ends in the UTF-8
encoding of a codepoint yields exactly the byte length of that
encoding. -/
lemma decodeLastRuneSize_encode (A : Str) (r : Nat) :
    decodeLastRuneSize (A ++ encodeRune r) = (encodeRune r).length := by
  obtain ⟨h1, hhead, hasc, hcont, hdec, hlen⟩ := encodeRune_spec r
  exact decodeLastRuneSize_append A (encodeRune r) h1 hhead hasc hcont hdec hlen

/-- Appending on the right preserves the suffix relation. -/
lemma suffix_append_right {a b s : Str} (h : a <:+ b) : a ++ s <:+ b ++ s := by
  obtain ⟨t, rfl⟩ := h
  exact ⟨t, (List.append_assoc t a s).symm⟩

/-- The consecutively-inserted text as it stands right after a graphic
key is inserted: the tracked `inserts` (emptied first when the buffer
changed since the last tracked insert) with the new key's encoding
appended. -/
def insertedRun (w : widget) (k : Key) : Str :=
  (if w.lastCodeBuffer = w.State.CodeBuffer then w.inserts else []) ++
    encodeRune k.Rune.toNat

/-! ## Theorems -/

/-- Claim C8: a function key (modified key or negative rune) received
in the Pasting state is silently discarded — widget state (paste
accumulator, buffer and state-machine state included) is unchanged, no
submit happens, and the event is reported handled. -/
theorem funcKey_dropped_while_pasting (cfg : Config) (w : widget) (k : Key)
    (hp : w.pasting = true) (hf : k.isFuncKey = true) :
    handleKeyEvent cfg w k =
      { w := w, handled := true, submitted := [], resets := 0 } := by
  simp [handleKeyEvent, hp, hf]

/-- Witness for C8: an Alt-modified key mid-paste is dropped with the
widget unchanged. -/
theorem funcKey_dropped_while_pasting_witness :
    ({ w0 with pasting := true } : widget).pasting = true ∧
      (Key.isFuncKey { Rune := 97, Mod := 1 }) = true ∧
      handleKeyEvent cfgQ { w0 with pasting := true } { Rune := 97, Mod := 1 } =
        { w := { w0 with pasting := true }, handled := true, submitted := [], resets := 0 } :=
  ⟨rfl, by decide,
    funcKey_dropped_while_pasting cfgQ { w0 with pasting := true }
      { Rune := 97, Mod := 1 } rfl (by decide)⟩

/-- Claim C10: while pasting, no key event ever submits; an unmodified
Enter (`'\n'`, i.e. rune `10`, modifier `0`) is a non-function key
whose codepoint is appended to the paste accumulator, leaving the
public state alone. -/
theorem pasting_never_submits (cfg : Config) (w : widget)
    (hp : w.pasting = true) :
    (∀ k : Key, (handleKeyEvent cfg w k).submitted = []) ∧
      (K 10).isFuncKey = false ∧
      (handleKeyEvent cfg w (K 10)).w.pasteBuffer = w.pasteBuffer ++ [10] ∧
      (handleKeyEvent cfg w (K 10)).w.State = w.State ∧
      (handleKeyEvent cfg w (K 10)).handled = true := by
  refine ⟨fun k => ?_, by decide, ?_, ?_, ?_⟩
  · by_cases hf : k.isFuncKey <;> simp [handleKeyEvent, hp, hf]
  all_goals simp [handleKeyEvent, hp, K, Key.isFuncKey, encodeRune]

/-- Witness for C10: Enter pressed mid-paste is accumulated, not
submitted. -/
theorem pasting_never_submits_witness :
    ({ w0 with pasting := true } : widget).pasting = true ∧
      (∀ k : Key, (handleKeyEvent cfgQ { w0 with pasting := true } k).submitted = []) ∧
      (handleKeyEvent cfgQ { w0 with pasting := true } (K 10)).w.pasteBuffer = [10] :=
  ⟨rfl, (pasting_never_submits cfgQ { w0 with pasting := true } rfl).1,
    ((pasting_never_submits cfgQ { w0 with pasting := true } rfl).2.2.1).trans rfl⟩

/-- Claim C6: Enter in the Normal state submits exactly the current
buffer content, exactly once, reports handled, and the only
widget-state change is the insertion-tracking reset — in particular
the buffer (content and dot) is untouched. -/
theorem submit_nondestructive (cfg : Config) (w : widget)
    (hp : w.pasting = false) :
    (handleKeyEvent cfg w (K 10)).submitted = [w.State.CodeBuffer.Content] ∧
      (handleKeyEvent cfg w (K 10)).w =
        { w with inserts := [], lastCodeBuffer := { Content := [], Dot := 0 } } ∧
      (handleKeyEvent cfg w (K 10)).handled = true := by
  refine ⟨?_, ?_, ?_⟩ <;>
    simp [handleKeyEvent, hp, widget.resetInserts]

/-- Witness for C6: Enter on a concrete buffer submits its content and
leaves the buffer as it was. -/
theorem submit_nondestructive_witness :
    (newWithState { Content := [104, 105], Dot := 1 } : widget).pasting = false ∧
      (handleKeyEvent cfgEx (newWithState { Content := [104, 105], Dot := 1 })
          (K 10)).submitted = [[104, 105]] ∧
      (handleKeyEvent cfgEx (newWithState { Content := [104, 105], Dot := 1 })
          (K 10)).w.State.CodeBuffer = { Content := [104, 105], Dot := 1 } :=
  ⟨rfl,
    (submit_nondestructive cfgEx (newWithState { Content := [104, 105], Dot := 1 }) rfl).1,
    by rw [(submit_nondestructive cfgEx
        (newWithState { Content := [104, 105], Dot := 1 }) rfl).2.1]; rfl⟩

/-- Claim C5: the composite built by `AddOverlayHandler` renders
exactly as the base, and on handle gives the overlay first refusal:
when the overlay handles the event the composite reports handled with
the base's state component untouched (no handling path of the base
runs); the base handler runs only when the overlay reports not
handled. -/
theorem overlay_precedence {σ τ E R : Type} (base : GWidget σ E R)
    (overlay : GHandler τ E) (s : σ × τ) (e : E) (width height : Nat) :
    (AddOverlayHandler base overlay).Render s width height =
        base.Render s.1 width height ∧
      ((overlay.Handle s.2 e).2 = true →
        (AddOverlayHandler base overlay).Handle s e =
          ((s.1, (overlay.Handle s.2 e).1), true)) ∧
      ((overlay.Handle s.2 e).2 = false →
        (AddOverlayHandler base overlay).Handle s e =
          (((base.Handle s.1 e).1, (overlay.Handle s.2 e).1), (base.Handle s.1 e).2)) := by
  refine ⟨rfl, fun h => ?_, fun h => ?_⟩ <;>
    simp [AddOverlayHandler, h]

/-- Witness for C5: a concrete base widget that would mutate its
counter state and report unhandled, wrapped with an overlay that
handles everything: the composite reports handled and the base state
stays `0`. -/
theorem overlay_precedence_witness :
    ((GHandler.Handle { Handle := fun (t : Nat) (_ : Nat) => (t + 1, true) } 0 5).2 = true) ∧
      (AddOverlayHandler
          { Render := fun (s : Nat) _ _ => s,
            Handle := fun s (_ : Nat) => (s + 100, false) }
          { Handle := fun (t : Nat) (_ : Nat) => (t + 1, true) }).Handle (0, 0) 5 =
        ((0, 1), true) :=
  ⟨rfl,
    ((overlay_precedence
        { Render := fun (s : Nat) _ _ => s, Handle := fun s (_ : Nat) => (s + 100, false) }
        { Handle := fun (t : Nat) (_ : Nat) => (t + 1, true) }
        (0, 0) 5 1 1).2.1 rfl).trans rfl⟩

/-- Counterexample for C7: the claim says the Highlighter, like the
Prompt, offers all three `AsyncSource` operations, in particular
`trigger(force)` — but the `Highlighter` interface declared in
`cli/app_spec.go` has no `Trigger` method. -/
theorem highlighter_lacks_trigger :
    AsyncOp.trigger ∈ asyncSourceOps ∧ AsyncOp.trigger ∉ highlighterOps := by
  decide

/-- Claim C7 (amended): the Prompt provides all three operations of the
shared shape (`get`, `trigger(force)`, late updates), while the
Highlighter provides only `get` (taking the code as argument) and late
updates — it has no trigger operation. -/
theorem async_source_shapes :
    (∀ op ∈ asyncSourceOps, op ∈ promptOps) ∧
      highlighterOps = [AsyncOp.get, AsyncOp.lateUpdates] ∧
      AsyncOp.trigger ∉ highlighterOps := by
  decide

/-- Claim C9: a paste-end event in the Normal state (no preceding
paste-start) is still processed as a completed paste — the handler
never consults the pasting flag: the (empty) accumulator text, quoted
when the quoting predicate holds, is inserted at dot, insertion
tracking is reset, and the event is reported handled. -/
theorem paste_end_without_start (cfg : Config) (w : widget)
    (_hp : w.pasting = false) (hb : w.pasteBuffer = []) :
    (handlePasteSetting cfg w false).handled = true ∧
      (handlePasteSetting cfg w false).w.State.CodeBuffer =
        w.State.CodeBuffer.insertAtDot (if cfg.QuotePaste then cfg.Quote [] else []) ∧
      (handlePasteSetting cfg w false).w.inserts = [] ∧
      (handlePasteSetting cfg w false).w.lastCodeBuffer = { Content := [], Dot := 0 } ∧
      (handlePasteSetting cfg w false).w.pasting = false := by
  refine ⟨rfl, ?_, rfl, rfl, rfl⟩
  simp [handlePasteSetting, widget.resetInserts, hb]

/-- Witness for C9: with quoting on and a single-quote-wrapping quote
function, a stray paste-end on the empty widget inserts the two-byte
quoted empty string `''`. -/
theorem paste_end_without_start_witness :
    (w0.pasting = false ∧ w0.pasteBuffer = []) ∧
      (handlePasteSetting cfgQ w0 false).w.State.CodeBuffer =
        { Content := [39, 39], Dot := 2 } :=
  ⟨⟨rfl, rfl⟩, ((paste_end_without_start cfgQ w0 rfl rfl).2.1).trans (by decide)⟩

/-- In the Normal state, an unmodified graphic key that is neither
Enter nor Backspace takes the insertion branch of `handleKeyEvent`;
this lemma exposes that branch as an explicit term. -/
lemma handleKeyEvent_graphic_eq (cfg : Config) (w : widget) (k : Key)
    (hp : w.pasting = false) (hk : k.isFuncKey = false)
    (hg : cfg.IsGraphic k.Rune.toNat = true)
    (hne : k ≠ K 10) (hnb : k ≠ K uiBackspace) :
    handleKeyEvent cfg w k =
      (let r0 : Nat := if w.lastCodeBuffer = w.State.CodeBuffer then 0 else 1
       let w1 := if w.lastCodeBuffer = w.State.CodeBuffer then w else w.resetInserts
       let s := encodeRune k.Rune.toNat
       let buf := w1.State.CodeBuffer.insertAtDot s
       let ins := w1.inserts ++ s
       let pick := pickAbbr ins cfg.Abbreviations
       if 0 < pick.1.length then
         { w := { w1 with
                   State := { CodeBuffer :=
                     { Content := buf.Content.take (buf.Dot - pick.1.length) ++ pick.2 ++
                         buf.Content.drop buf.Dot
                       Dot := buf.Dot - pick.1.length + pick.2.length } }
                   inserts := []
                   lastCodeBuffer := { Content := [], Dot := 0 } }
           handled := true, submitted := [], resets := r0 + 1 }
       else
         { w := { w1 with
                   State := { CodeBuffer := buf }
                   inserts := ins
                   lastCodeBuffer := buf }
           handled := true, submitted := [], resets := r0 }) := by
  rw [handleKeyEvent]
  rw [if_neg (by rw [hp]; exact Bool.false_ne_true), if_neg hne, if_neg hnb,
    if_neg (by rw [hk, hg]; exact Bool.false_ne_true)]


/-- When dot is in range, inserting at dot leaves the text before dot
(followed by the inserted text) and the text after dot exactly
recoverable by `take`/`drop` at the new dot. -/
lemma insertAtDot_take_drop (c : CodeBuffer) (s : Str)
    (hdot : c.Dot ≤ c.Content.length) :
    (c.insertAtDot s).Content.take (c.insertAtDot s).Dot =
        c.Content.take c.Dot ++ s ∧
      (c.insertAtDot s).Content.drop (c.insertAtDot s).Dot =
        c.Content.drop c.Dot := by
  have hlen : (c.Content.take c.Dot ++ s).length = c.Dot + s.length := by
    simp [List.length_take, Nat.min_eq_left hdot]
  constructor
  · show ((c.Content.take c.Dot ++ s) ++ c.Content.drop c.Dot).take (c.Dot + s.length) = _
    rw [← hlen, List.take_left]
  · show ((c.Content.take c.Dot ++ s) ++ c.Content.drop c.Dot).drop (c.Dot + s.length) = _
    rw [← hlen, List.drop_left]

/-- Claim C1: after a graphic key is inserted in the Normal state, the
widget selects, among all configured pairs whose abbreviation is a
trailing substring of the consecutively-inserted text, the pair with
the longest abbreviation, ties broken in favour of the first pair in
enumeration order; if a pair is selected, the last `length(abbr)`
bytes of content ending at dot are replaced by the expansion, dot
moves to the end of the expansion, and insertion tracking is reset.
In particular, with abbreviations `ex → example`, `x → exchange`,
typing `e` then `x` into an empty buffer yields `example` with dot 7. -/
theorem abbreviation_longest_match (cfg : Config) (w : widget) (k : Key)
    (hp : w.pasting = false) (hk : k.isFuncKey = false)
    (hg : cfg.IsGraphic k.Rune.toNat = true)
    (hne : k ≠ K 10) (hnb : k ≠ K uiBackspace)
    (hdot : w.State.CodeBuffer.Dot ≤ w.State.CodeBuffer.Content.length)
    (htrack : w.lastCodeBuffer = w.State.CodeBuffer →
      w.inserts <:+ w.State.CodeBuffer.Content.take w.State.CodeBuffer.Dot) :
    (handleKeyEvent cfg w k).handled = true ∧
      (∀ q ∈ cfg.Abbreviations, q.1 <:+ insertedRun w k →
        q.1.length ≤ (pickAbbr (insertedRun w k) cfg.Abbreviations).1.length) ∧
      (0 < (pickAbbr (insertedRun w k) cfg.Abbreviations).1.length →
        (∃ l1 l2, cfg.Abbreviations =
            l1 ++ pickAbbr (insertedRun w k) cfg.Abbreviations :: l2 ∧
          (pickAbbr (insertedRun w k) cfg.Abbreviations).1 <:+ insertedRun w k ∧
          ∀ q ∈ l1, q.1 <:+ insertedRun w k →
            q.1.length < (pickAbbr (insertedRun w k) cfg.Abbreviations).1.length) ∧
        (∃ X : Str,
          (w.State.CodeBuffer.insertAtDot (encodeRune k.Rune.toNat)).Content.take
              (w.State.CodeBuffer.insertAtDot (encodeRune k.Rune.toNat)).Dot =
            X ++ (pickAbbr (insertedRun w k) cfg.Abbreviations).1 ∧
          (handleKeyEvent cfg w k).w.State.CodeBuffer =
            { Content := X ++ (pickAbbr (insertedRun w k) cfg.Abbreviations).2 ++
                w.State.CodeBuffer.Content.drop w.State.CodeBuffer.Dot
              Dot := X.length +
                (pickAbbr (insertedRun w k) cfg.Abbreviations).2.length } ∧
          (handleKeyEvent cfg w k).w.inserts = [] ∧
          (handleKeyEvent cfg w k).w.lastCodeBuffer = { Content := [], Dot := 0 })) ∧
      ((pickAbbr (insertedRun w k) cfg.Abbreviations).1.length = 0 →
        (handleKeyEvent cfg w k).w.State.CodeBuffer =
          w.State.CodeBuffer.insertAtDot (encodeRune k.Rune.toNat) ∧
        (handleKeyEvent cfg w k).w.inserts = insertedRun w k) ∧
      (runW cfgEx w0 [Event.key (K 101), Event.key (K 120)]).State.CodeBuffer =
        { Content := [101, 120, 97, 109, 112, 108, 101], Dot := 7 } := by
  obtain ⟨-, hlongest, hfirst⟩ :=
    pickAbbrGo_spec (insertedRun w k) cfg.Abbreviations ([], [])
  rw [← pickAbbr_eq_go] at hlongest hfirst
  have hshape := handleKeyEvent_graphic_eq cfg w k hp hk hg hne hnb
  dsimp only at hshape
  have hw1State :
      (if w.lastCodeBuffer = w.State.CodeBuffer then w else w.resetInserts).State
        = w.State := by
    split <;> rfl
  have hw1ins :
      (if w.lastCodeBuffer = w.State.CodeBuffer then w else w.resetInserts).inserts
        = (if w.lastCodeBuffer = w.State.CodeBuffer then w.inserts else []) := by
    split <;> rfl
  rw [hw1State, hw1ins, ← insertedRun] at hshape
  refine ⟨?_, hlongest, ?_, ?_, ?_⟩
  · rw [hshape]
    split <;> rfl
  · intro hpick
    rcases hfirst with heq | ⟨l1, l2, hdecomp, hsufpick, -, hall⟩
    · rw [heq] at hpick
      simp at hpick
    · refine ⟨⟨l1, l2, hdecomp, hsufpick, hall⟩, ?_⟩
      obtain ⟨htake, hdrop⟩ :=
        insertAtDot_take_drop w.State.CodeBuffer (encodeRune k.Rune.toNat) hdot
      have hinsSuf : insertedRun w k <:+
          w.State.CodeBuffer.Content.take w.State.CodeBuffer.Dot ++
            encodeRune k.Rune.toNat := by
        unfold insertedRun
        split
        · exact suffix_append_right (htrack (by assumption))
        · rw [List.nil_append]
          exact List.suffix_append _ _
      obtain ⟨X, hX⟩ := hsufpick.trans hinsSuf
      have hlenX : X.length +
          (pickAbbr (insertedRun w k) cfg.Abbreviations).1.length =
          w.State.CodeBuffer.Dot + (encodeRune k.Rune.toNat).length := by
        have hl := congrArg List.length hX
        simpa [List.length_take, Nat.min_eq_left hdot] using hl
      have hbufc :
          (w.State.CodeBuffer.insertAtDot (encodeRune k.Rune.toNat)).Content =
            X ++ ((pickAbbr (insertedRun w k) cfg.Abbreviations).1 ++
              w.State.CodeBuffer.Content.drop w.State.CodeBuffer.Dot) := by
        show (w.State.CodeBuffer.Content.take w.State.CodeBuffer.Dot ++
            encodeRune k.Rune.toNat) ++
            w.State.CodeBuffer.Content.drop w.State.CodeBuffer.Dot = _
        rw [← hX, List.append_assoc]
      have hdotsub :
          (w.State.CodeBuffer.insertAtDot (encodeRune k.Rune.toNat)).Dot -
            (pickAbbr (insertedRun w k) cfg.Abbreviations).1.length = X.length := by
        show w.State.CodeBuffer.Dot + (encodeRune k.Rune.toNat).length - _ = _
        omega
      have htakeX :
          (w.State.CodeBuffer.insertAtDot (encodeRune k.Rune.toNat)).Content.take
            ((w.State.CodeBuffer.insertAtDot (encodeRune k.Rune.toNat)).Dot -
              (pickAbbr (insertedRun w k) cfg.Abbreviations).1.length) = X := by
        rw [hdotsub, hbufc, List.take_left]
      refine ⟨X, by rw [htake, ← hX], ?_, ?_, ?_⟩
      · rw [hshape, if_pos hpick]
        simp only [CodeBuffer.mk.injEq]
        refine ⟨?_, ?_⟩
        · rw [htakeX, hdrop, List.append_assoc]
        · omega
      · rw [hshape, if_pos hpick]
      · rw [hshape, if_pos hpick]
  · intro hpick0
    have hnpick : ¬ 0 < (pickAbbr (insertedRun w k) cfg.Abbreviations).1.length := by
      omega
    constructor
    · rw [hshape, if_neg hnpick]
    · rw [hshape, if_neg hnpick]
  · rfl


/-- Witness for C1: the theorem applied to the widget obtained by
typing `e` into the empty buffer, with the key `x`. -/
theorem abbreviation_longest_match_witness :
    ((stepW cfgEx w0 (Event.key (K 101))).pasting = false ∧
      (K 120).isFuncKey = false ∧
      cfgEx.IsGraphic (K 120).Rune.toNat = true ∧
      (stepW cfgEx w0 (Event.key (K 101))).State.CodeBuffer.Dot ≤
        (stepW cfgEx w0 (Event.key (K 101))).State.CodeBuffer.Content.length) ∧
      (handleKeyEvent cfgEx (stepW cfgEx w0 (Event.key (K 101))) (K 120)).handled
        = true :=
  ⟨⟨rfl, by decide, by decide, by decide⟩,
    (abbreviation_longest_match cfgEx (stepW cfgEx w0 (Event.key (K 101))) (K 120)
      rfl (by decide) (by decide) (by decide) (by decide) (by decide) (by decide)).1⟩

/-- The widget of the multi-byte backspace example: content `café`
(`é` encoded as the two bytes `C3 A9`), dot 5. -/
def wCafe : widget :=
  newWithState { Content := [99, 97, 102, 195, 169], Dot := 5 }

/-- Claim C3: Backspace in the Normal state removes exactly one full
codepoint ending at dot — as measured by backward UTF-8 decoding — and
decrements dot by that codepoint's encoded byte length; at dot 0 the
buffer is unchanged.  The event is handled and insertion tracking is
reset.  In particular `("café", 5)` becomes `("caf", 3)`. -/
theorem backspace_removes_codepoint (cfg : Config) (w : widget)
    (hp : w.pasting = false) :
    (∀ A r, w.State.CodeBuffer.Content.take w.State.CodeBuffer.Dot =
        A ++ encodeRune r →
      (handleKeyEvent cfg w (K uiBackspace)).w.State.CodeBuffer =
        { Content := w.State.CodeBuffer.Content.take
              (w.State.CodeBuffer.Dot - (encodeRune r).length) ++
            w.State.CodeBuffer.Content.drop w.State.CodeBuffer.Dot
          Dot := w.State.CodeBuffer.Dot - (encodeRune r).length }) ∧
      (w.State.CodeBuffer.Dot = 0 →
        (handleKeyEvent cfg w (K uiBackspace)).w.State.CodeBuffer =
          w.State.CodeBuffer) ∧
      (handleKeyEvent cfg w (K uiBackspace)).handled = true ∧
      (handleKeyEvent cfg w (K uiBackspace)).w.inserts = [] ∧
      (handleKeyEvent cfgEx wCafe (K uiBackspace)).w.State.CodeBuffer =
        { Content := [99, 97, 102], Dot := 3 } := by
  obtain ⟨⟨⟨C, D⟩⟩, ins, lcb, pa, pb⟩ := w
  simp only at hp
  subst hp
  have hshape : handleKeyEvent cfg
      { State := { CodeBuffer := { Content := C, Dot := D } }, inserts := ins,
        lastCodeBuffer := lcb, pasting := false, pasteBuffer := pb }
      (K uiBackspace) =
      { w := { State := { CodeBuffer :=
                 { Content := C.take (D - decodeLastRuneSize (C.take D)) ++ C.drop D
                   Dot := D - decodeLastRuneSize (C.take D) } }
               inserts := [], lastCodeBuffer := { Content := [], Dot := 0 },
               pasting := false, pasteBuffer := pb }
        handled := true, submitted := [], resets := 1 } := by
    rw [handleKeyEvent]
    rw [if_neg (by exact Bool.false_ne_true), if_neg (by decide), if_pos rfl]
    rfl
  refine ⟨?_, ?_, ?_, ?_, by decide⟩
  · intro A r htk
    simp only at htk
    rw [hshape]
    simp only
    rw [htk, decodeLastRuneSize_encode]
  · intro h0
    simp only at h0
    subst h0
    rw [hshape]
    simp [decodeLastRuneSize]
  · rw [hshape]
  · rw [hshape]


/-- Witness for C3: the theorem applied to the `café` widget, whose
text before dot ends in the encoding of `é` (codepoint 233). -/
theorem backspace_removes_codepoint_witness :
    (wCafe.pasting = false ∧
      wCafe.State.CodeBuffer.Content.take wCafe.State.CodeBuffer.Dot =
        [99, 97, 102] ++ encodeRune 233) ∧
      (handleKeyEvent cfgEx wCafe (K uiBackspace)).w.State.CodeBuffer =
        { Content := [99, 97, 102], Dot := 3 } :=
  ⟨⟨rfl, by decide⟩,
    ((backspace_removes_codepoint cfgEx wCafe rfl).1 [99, 97, 102] 233
        (by decide)).trans (by decide)⟩

/-- The UTF-8 bytes accumulated in the paste buffer by a sequence of
non-function keys. -/
def pastedText (ks : List Key) : Str :=
  (ks.map (fun k => encodeRune k.Rune.toNat)).flatten

/-- The text a paste-end event inserts: the accumulated text, quoted
when the quoting predicate holds. -/
def pasteInsert (cfg : Config) (t : Str) : Str :=
  if cfg.QuotePaste then cfg.Quote t else t

/-- The event sequence of the paste example: paste-start, `h`, `i`,
paste-end. -/
def pasteEvents : List Event :=
  [Event.pasteSetting true, Event.key (K 104), Event.key (K 105),
    Event.pasteSetting false]

/-- Counterexample for C2: the whole paste sequence performs two
insertion-tracking resets (`handlePasteSetting` calls `resetInserts`
unconditionally, on paste-start as well as on paste-end), not exactly
one as the claim states. -/
theorem paste_one_reset_refuted :
    runResets cfgQ w0 pasteEvents = 2 ∧ ¬ runResets cfgQ w0 pasteEvents = 1 := by
  decide

lemma runW_append (cfg : Config) (w : widget) (xs ys : List Event) :
    runW cfg w (xs ++ ys) = runW cfg (runW cfg w xs) ys :=
  List.foldl_append _ _ _ _

lemma runResets_append (cfg : Config) (w : widget) (xs ys : List Event) :
    runResets cfg w (xs ++ ys) =
      runResets cfg w xs + runResets cfg (runW cfg w xs) ys := by
  induction xs generalizing w with
  | nil => simp [runResets, runW]
  | cons x xs ih =>
    show (Handle cfg w x).resets + runResets cfg (stepW cfg w x) (xs ++ ys) = _
    rw [ih]
    show _ = (Handle cfg w x).resets + runResets cfg (stepW cfg w x) xs +
      runResets cfg (runW cfg (stepW cfg w x) xs) ys
    omega

/-- While pasting, a run of non-function keys only appends their
encodings to the paste accumulator and performs no reset. -/
lemma pasting_accumulates (cfg : Config) (w : widget) (ks : List Key)
    (hp : w.pasting = true) (hks : ∀ k ∈ ks, k.isFuncKey = false) :
    runW cfg w (ks.map Event.key) =
        { w with pasteBuffer := w.pasteBuffer ++ pastedText ks } ∧
      runResets cfg w (ks.map Event.key) = 0 := by
  induction ks generalizing w with
  | nil =>
    constructor
    · simp [runW, pastedText]
    · simp [runResets]
  | cons k ks ih =>
    have hk : k.isFuncKey = false := hks k (List.mem_cons_self _ _)
    have hstep : stepW cfg w (Event.key k) =
        { w with pasteBuffer := w.pasteBuffer ++ encodeRune k.Rune.toNat } := by
      unfold stepW Handle
      dsimp only
      unfold handleKeyEvent
      rw [if_pos hp, if_neg (by rw [hk]; exact Bool.false_ne_true)]
    have hres : (Handle cfg w (Event.key k)).resets = 0 := by
      unfold Handle
      dsimp only
      unfold handleKeyEvent
      rw [if_pos hp, if_neg (by rw [hk]; exact Bool.false_ne_true)]
    obtain ⟨ih1, ih2⟩ := ih { w with pasteBuffer := w.pasteBuffer ++ encodeRune k.Rune.toNat }
      hp (fun q hq => hks q (List.mem_cons_of_mem _ hq))
    constructor
    · show runW cfg (stepW cfg w (Event.key k)) (ks.map Event.key) = _
      rw [hstep, ih1]
      simp [pastedText]
    · show (Handle cfg w (Event.key k)).resets +
        runResets cfg (stepW cfg w (Event.key k)) (ks.map Event.key) = 0
      rw [hres, hstep, ih2]

/-- Claim C2 (amended): a paste-start / non-function keys / paste-end
sequence accumulates the key codepoints and, on paste-end, inserts the
accumulated text at dot as one insertion operation — quoted when the
quoting predicate holds — clears the accumulator and leaves the
Pasting state; the whole sequence performs exactly two
insertion-tracking resets (one at paste-start, one at paste-end), not
one.  Concretely, pasting `h`, `i` with a single-quote-wrapping quote
function inserts `'hi'` in one operation. -/
theorem paste_aggregation (cfg : Config) (w : widget) (ks : List Key)
    (_hp : w.pasting = false) (hb : w.pasteBuffer = [])
    (hks : ∀ k ∈ ks, k.isFuncKey = false) :
    runW cfg w
        (Event.pasteSetting true :: (ks.map Event.key ++ [Event.pasteSetting false])) =
        { State := { CodeBuffer := w.State.CodeBuffer.insertAtDot (pasteInsert cfg (pastedText ks)) }
          inserts := []
          lastCodeBuffer := { Content := [], Dot := 0 }
          pasting := false
          pasteBuffer := [] } ∧
      runResets cfg w
        (Event.pasteSetting true :: (ks.map Event.key ++ [Event.pasteSetting false])) = 2 ∧
      (runW cfgQ w0 pasteEvents).State.CodeBuffer =
        { Content := [39, 104, 105, 39], Dot := 4 } := by
  have hstart : stepW cfg w (Event.pasteSetting true) =
      { w.resetInserts with pasting := true } := by
    unfold stepW Handle
    dsimp only
    unfold handlePasteSetting
    rw [if_pos rfl]
  have hstartR : (Handle cfg w (Event.pasteSetting true)).resets = 1 := by
    unfold Handle
    dsimp only
    unfold handlePasteSetting
    rw [if_pos rfl]
  obtain ⟨hmid, hmidR⟩ := pasting_accumulates cfg
    { w.resetInserts with pasting := true } ks rfl hks
  have hendW : ∀ v : widget,
      stepW cfg v (Event.pasteSetting false) =
        { v.resetInserts with
          State := { CodeBuffer := v.State.CodeBuffer.insertAtDot (pasteInsert cfg v.pasteBuffer) }
          pasting := false
          pasteBuffer := [] } := by
    intro v
    unfold stepW Handle
    dsimp only
    unfold handlePasteSetting pasteInsert
    rw [if_neg (by exact Bool.false_ne_true)]
    rfl
  have hendR : ∀ v : widget, (Handle cfg v (Event.pasteSetting false)).resets = 1 := by
    intro v
    unfold Handle
    dsimp only
    unfold handlePasteSetting
    rw [if_neg (by exact Bool.false_ne_true)]
  refine ⟨?_, ?_, by decide⟩
  · show runW cfg (stepW cfg w (Event.pasteSetting true))
      (ks.map Event.key ++ [Event.pasteSetting false]) = _
    rw [hstart, runW_append, hmid]
    show stepW cfg _ (Event.pasteSetting false) = _
    rw [hendW]
    simp only [widget.resetInserts, hb, List.nil_append]
  · show (Handle cfg w (Event.pasteSetting true)).resets +
      runResets cfg (stepW cfg w (Event.pasteSetting true))
        (ks.map Event.key ++ [Event.pasteSetting false]) = 2
    rw [hstartR, hstart, runResets_append, hmidR, hmid]
    show 1 + (0 + ((Handle cfg _ (Event.pasteSetting false)).resets +
      runResets cfg _ [])) = 2
    rw [hendR]
    simp [runResets]


/-- Witness for C2: the amended theorem applied to the empty widget and
the keys `h`, `i` under the quoting configuration. -/
theorem paste_aggregation_witness :
    (w0.pasting = false ∧ w0.pasteBuffer = [] ∧
      ∀ k ∈ [K 104, K 105], k.isFuncKey = false) ∧
      runResets cfgQ w0 (Event.pasteSetting true ::
        ([K 104, K 105].map Event.key ++ [Event.pasteSetting false])) = 2 ∧
      (runW cfgQ w0 pasteEvents).State.CodeBuffer =
        { Content := [39, 104, 105, 39], Dot := 4 } :=
  ⟨⟨rfl, rfl, by decide⟩,
    (paste_aggregation cfgQ w0 [K 104, K 105] rfl rfl (by decide)).2⟩

/-! ## The reachable-state invariant (claim C4) -/

/-- A byte string is valid UTF-8 text when it is the byte-wise encoding
of some codepoint sequence. -/
def ValidUtf8 (s : Str) : Prop := ∃ rs, s = encodeStr rs

/-- The TextBuffer invariant of spec §3: the content is valid text and
dot sits on a codepoint boundary within it. -/
def BufferOK (c : CodeBuffer) : Prop :=
  ∃ a b, c.Content = encodeStr a ++ encodeStr b ∧ c.Dot = (encodeStr a).length

/-- Well-formed configuration: every abbreviation pair is valid text
and the quote function maps valid text to valid text. -/
def ConfigOK (cfg : Config) : Prop :=
  (∀ p ∈ cfg.Abbreviations, ValidUtf8 p.1 ∧ ValidUtf8 p.2) ∧
    ∀ s, ValidUtf8 s → ValidUtf8 (cfg.Quote s)

/-- The inductive widget invariant: the buffer satisfies the TextBuffer
invariant, the tracked texts are valid, and — when the tracking
snapshot still matches the buffer — the consecutively-inserted text is
a byte suffix of the text before dot. -/
def WInv (w : widget) : Prop :=
  BufferOK w.State.CodeBuffer ∧ ValidUtf8 w.inserts ∧ ValidUtf8 w.pasteBuffer ∧
    (w.lastCodeBuffer = w.State.CodeBuffer →
      w.inserts <:+ w.State.CodeBuffer.Content.take w.State.CodeBuffer.Dot)

lemma encodeStr_nil : encodeStr [] = [] := rfl

lemma encodeStr_cons (r : Nat) (rs : List Nat) :
    encodeStr (r :: rs) = encodeRune r ++ encodeStr rs := by
  simp [encodeStr]

lemma encodeStr_append (a b : List Nat) :
    encodeStr (a ++ b) = encodeStr a ++ encodeStr b := by
  simp [encodeStr]

lemma ValidUtf8.nil : ValidUtf8 [] := ⟨[], rfl⟩

lemma ValidUtf8.append {s t : Str} (hs : ValidUtf8 s) (ht : ValidUtf8 t) :
    ValidUtf8 (s ++ t) := by
  obtain ⟨a, rfl⟩ := hs
  obtain ⟨b, rfl⟩ := ht
  exact ⟨a ++ b, (encodeStr_append a b).symm⟩

lemma ValidUtf8.encode (r : Nat) : ValidUtf8 (encodeRune r) :=
  ⟨[r], by simp [encodeStr]⟩

lemma isRuneStart_of_lt (b : Nat) (h : b < 0x80) : isRuneStart b = true := by
  simp only [isRuneStart, isCont, Bool.not_eq_true']
  simp only [Bool.and_eq_false_iff, decide_eq_false_iff_not, not_le]
  omega

/-- The first byte of nonempty valid text is a rune start. -/
lemma encodeStr_head_start (bs : List Nat) (hne : encodeStr bs ≠ []) :
    isRuneStart ((encodeStr bs).getD 0 0) = true := by
  match bs with
  | [] => exact absurd rfl hne
  | rb :: bs' =>
    rw [encodeStr_cons]
    obtain ⟨hn, hhead, hasc, -, -, -⟩ := encodeRune_spec rb
    have hpos : 0 < (encodeRune rb).length := List.length_pos.mpr hn
    rw [List.getD_append _ _ _ _ hpos]
    rcases Nat.lt_or_ge 1 (encodeRune rb).length with hgt | hle
    · exact hhead hgt
    · exact isRuneStart_of_lt _ (hasc (by omega))

/-- A valid byte-suffix of the encoding of `a` is rune-aligned: the
bytes before it also form valid text. -/
lemma valid_suffix_align_encode (a : List Nat) (s : Str) (hs : ValidUtf8 s) :
    s <:+ encodeStr a → ∃ t, ValidUtf8 t ∧ encodeStr a = t ++ s := by
  induction a with
  | nil =>
    intro hsuf
    rw [encodeStr_nil, List.suffix_nil] at hsuf
    subst hsuf
    exact ⟨[], ValidUtf8.nil, rfl⟩
  | cons r a ih =>
    intro hsuf
    obtain ⟨v, hv⟩ := hsuf
    rw [encodeStr_cons] at hv
    by_cases hv0 : v = []
    · subst hv0
      exact ⟨[], ValidUtf8.nil, by rw [encodeStr_cons, ← hv]⟩
    rcases Nat.lt_or_ge v.length (encodeRune r).length with hlt | hge
    · exfalso
      obtain ⟨hn, hhead, hasc, hcont, -, -⟩ := encodeRune_spec r
      have hv1 : 1 ≤ v.length := by
        cases v with
        | nil => exact absurd rfl hv0
        | cons x xs => simp
      have hb1 : (encodeRune r ++ encodeStr a).getD v.length 0 =
          (encodeRune r).getD v.length 0 :=
        List.getD_append _ _ _ _ hlt
      have hb2 : (v ++ s).getD v.length 0 = s.getD 0 0 := by
        rw [List.getD_append_right _ _ _ _ (le_refl _), Nat.sub_self]
      have hslen : 1 ≤ s.length := by
        have hl := congrArg List.length hv
        simp only [List.length_append] at hl
        omega
      obtain ⟨bs, rfl⟩ := hs
      have hshead := encodeStr_head_start bs
        (by intro h0; rw [h0] at hslen; simp at hslen)
      have hcontb : isCont ((encodeRune r).getD v.length 0) = true :=
        hcont v.length hv1 hlt
      rw [← hv, hb2] at hb1
      rw [hb1] at hshead
      rw [isRuneStart_false_of_cont _ hcontb] at hshead
      exact Bool.false_ne_true hshead
    · have h1 : v.take (encodeRune r).length = encodeRune r := by
        have htk : (v ++ s).take (encodeRune r).length =
            v.take (encodeRune r).length :=
          List.take_append_of_le_length hge
        rw [hv, List.take_left] at htk
        exact htk.symm
      have hsplit : v = encodeRune r ++ v.drop (encodeRune r).length := by
        conv_lhs => rw [← List.take_append_drop (encodeRune r).length v]
        rw [h1]
      have hrest : v.drop (encodeRune r).length ++ s = encodeStr a := by
        have h2 : (encodeRune r ++ v.drop (encodeRune r).length) ++ s =
            encodeRune r ++ encodeStr a := by
          rw [← hsplit, hv]
        rw [List.append_assoc] at h2
        exact List.append_cancel_left h2
      obtain ⟨t', ht', heq⟩ := ih ⟨_, hrest⟩
      obtain ⟨cc, rfl⟩ := ht'
      refine ⟨encodeRune r ++ encodeStr cc, ⟨r :: cc, (encodeStr_cons r cc).symm⟩, ?_⟩
      rw [encodeStr_cons, heq, List.append_assoc]

/-- A valid byte-suffix of valid text is rune-aligned. -/
lemma valid_suffix_align (u s : Str) (hu : ValidUtf8 u) (hs : ValidUtf8 s)
    (hsuf : s <:+ u) : ∃ t, ValidUtf8 t ∧ u = t ++ s := by
  obtain ⟨a, rfl⟩ := hu
  exact valid_suffix_align_encode a s hs hsuf

/-- Inserting valid text at dot preserves the TextBuffer invariant. -/
lemma BufferOK.insertAtDot {c : CodeBuffer} {t : Str} (hc : BufferOK c)
    (ht : ValidUtf8 t) : BufferOK (c.insertAtDot t) := by
  obtain ⟨a, b, hC, hD⟩ := hc
  obtain ⟨ts, rfl⟩ := ht
  refine ⟨a ++ ts, b, ?_, ?_⟩
  · show c.Content.take c.Dot ++ encodeStr ts ++ c.Content.drop c.Dot = _
    rw [hC, hD, List.take_left, List.drop_left, encodeStr_append, List.append_assoc]
  · show c.Dot + (encodeStr ts).length = _
    rw [hD, encodeStr_append, List.length_append]

/-- The TextBuffer invariant keeps dot within the content. -/
lemma BufferOK.dot_le {c : CodeBuffer} (hc : BufferOK c) :
    c.Dot ≤ c.Content.length := by
  obtain ⟨a, b, hC, hD⟩ := hc
  rw [hC, hD, List.length_append]
  omega



lemma encodeStr_singleton (r : Nat) : encodeStr [r] = encodeRune r := by
  simp [encodeStr]

/-- The text before dot of an invariant buffer. -/
lemma BufferOK.take_eq {c : CodeBuffer} {a b : List Nat}
    (hC : c.Content = encodeStr a ++ encodeStr b)
    (hD : c.Dot = (encodeStr a).length) :
    c.Content.take c.Dot = encodeStr a := by
  rw [hC, hD, List.take_left]

lemma BufferOK.drop_eq {c : CodeBuffer} {a b : List Nat}
    (hC : c.Content = encodeStr a ++ encodeStr b)
    (hD : c.Dot = (encodeStr a).length) :
    c.Content.drop c.Dot = encodeStr b := by
  rw [hC, hD, List.drop_left]

/-- Chopping the backward-decoded last rune before dot preserves the
TextBuffer invariant: this is the buffer the Backspace branch builds. -/
lemma BufferOK.backspace {c : CodeBuffer} (hc : BufferOK c) :
    BufferOK
      { Content := c.Content.take
            (c.Dot - decodeLastRuneSize (c.Content.take c.Dot)) ++
          c.Content.drop c.Dot
        Dot := c.Dot - decodeLastRuneSize (c.Content.take c.Dot) } := by
  obtain ⟨a, b, hC, hD⟩ := hc
  have htk := BufferOK.take_eq hC hD
  have hdp := BufferOK.drop_eq hC hD
  rcases List.eq_nil_or_concat a with rfl | ⟨as, r, rfl⟩
  · have hd0 : c.Dot = 0 := by rw [hD]; rfl
    have hchop : decodeLastRuneSize (c.Content.take c.Dot) = 0 := by
      rw [hd0]
      rfl
    refine ⟨[], b, ?_, ?_⟩
    · simp only [hchop, hd0, Nat.sub_zero, List.take_zero, List.drop_zero,
        List.nil_append]
      simpa using hC
    · rw [hchop, hd0]
      rfl
  · rw [List.concat_eq_append] at htk hD hC
    rw [encodeStr_append, encodeStr_singleton] at htk hD hC
    have hchop : decodeLastRuneSize (c.Content.take c.Dot) =
        (encodeRune r).length := by
      rw [htk]
      exact decodeLastRuneSize_encode _ _
    have hdsub : c.Dot - (encodeRune r).length = (encodeStr as).length := by
      rw [hD, List.length_append]
      omega
    refine ⟨as, b, ?_, ?_⟩
    · rw [hchop, hdsub, hdp, hC, List.append_assoc, List.take_left]
    · rw [hchop, hdsub]

/-- Replacing a valid trailing chunk of the pre-dot text by valid text
preserves the TextBuffer invariant: this is the buffer the
abbreviation-expansion branch builds. -/
lemma BufferOK.expand {c : CodeBuffer} {abbr full : Str} (hc : BufferOK c)
    (habbr : ValidUtf8 abbr) (hfull : ValidUtf8 full)
    (hsuf : abbr <:+ c.Content.take c.Dot) :
    BufferOK
      { Content := c.Content.take (c.Dot - abbr.length) ++ full ++
          c.Content.drop c.Dot
        Dot := c.Dot - abbr.length + full.length } := by
  obtain ⟨a, b, hC, hD⟩ := hc
  have htk := BufferOK.take_eq hC hD
  have hdp := BufferOK.drop_eq hC hD
  rw [htk] at hsuf
  obtain ⟨t, ⟨cc, rfl⟩, heq⟩ := valid_suffix_align _ _ ⟨a, rfl⟩ habbr hsuf
  obtain ⟨fs, rfl⟩ := hfull
  have hlen : (encodeStr a).length = (encodeStr cc).length + abbr.length := by
    rw [heq, List.length_append]
  have hdsub : c.Dot - abbr.length = (encodeStr cc).length := by
    omega
  have htk2 : c.Content.take (c.Dot - abbr.length) = encodeStr cc := by
    rw [hdsub, hC, heq, List.append_assoc, List.take_left]
  refine ⟨cc ++ fs, b, ?_, ?_⟩
  · rw [htk2, hdp, encodeStr_append, List.append_assoc]
  · rw [hdsub, encodeStr_append, List.length_append]


/-- One handled event preserves the widget invariant. -/
lemma WInv_step (cfg : Config) (w : widget) (e : Event)
    (hcfg : ConfigOK cfg) (hw : WInv w) : WInv (stepW cfg w e) := by
  obtain ⟨hbuf, hins, hpb, htrack⟩ := hw
  cases e with
  | pasteSetting start =>
    cases start with
    | true =>
      have hs : stepW cfg w (Event.pasteSetting true) =
          { w.resetInserts with pasting := true } := by
        unfold stepW Handle
        dsimp only
        unfold handlePasteSetting
        rw [if_pos rfl]
      rw [hs]
      exact ⟨hbuf, ValidUtf8.nil, hpb, fun _ => List.nil_suffix⟩
    | false =>
      have hs : stepW cfg w (Event.pasteSetting false) =
          { w.resetInserts with
            State := { CodeBuffer :=
              w.State.CodeBuffer.insertAtDot (pasteInsert cfg w.pasteBuffer) }
            pasting := false
            pasteBuffer := [] } := by
        unfold stepW Handle
        dsimp only
        unfold handlePasteSetting pasteInsert
        rw [if_neg (by exact Bool.false_ne_true)]
        rfl
      rw [hs]
      refine ⟨?_, ValidUtf8.nil, ValidUtf8.nil, fun _ => List.nil_suffix⟩
      refine hbuf.insertAtDot ?_
      unfold pasteInsert
      split
      · exact hcfg.2 _ hpb
      · exact hpb
  | key k =>
    by_cases hpst : w.pasting = true
    · by_cases hf : k.isFuncKey = true
      · have hs : stepW cfg w (Event.key k) = w := by
          unfold stepW Handle
          dsimp only
          unfold handleKeyEvent
          rw [if_pos hpst, if_pos hf]
        rw [hs]
        exact ⟨hbuf, hins, hpb, htrack⟩
      · have hs : stepW cfg w (Event.key k) =
            { w with pasteBuffer := w.pasteBuffer ++ encodeRune k.Rune.toNat } := by
          unfold stepW Handle
          dsimp only
          unfold handleKeyEvent
          rw [if_pos hpst, if_neg hf]
        rw [hs]
        exact ⟨hbuf, hins, hpb.append (ValidUtf8.encode _), htrack⟩
    · have hpst' : ¬ w.pasting = true := hpst
      by_cases h10 : k = K 10
      · subst h10
        have hs : stepW cfg w (Event.key (K 10)) = w.resetInserts := by
          unfold stepW Handle
          dsimp only
          unfold handleKeyEvent
          rw [if_neg hpst', if_pos rfl]
        rw [hs]
        exact ⟨hbuf, ValidUtf8.nil, hpb, fun _ => List.nil_suffix⟩
      by_cases hbk : k = K uiBackspace
      · subst hbk
        have hs : stepW cfg w (Event.key (K uiBackspace)) =
            { w.resetInserts with
              State := { CodeBuffer :=
                { Content := w.State.CodeBuffer.Content.take
                      (w.State.CodeBuffer.Dot - decodeLastRuneSize
                        (w.State.CodeBuffer.Content.take w.State.CodeBuffer.Dot)) ++
                    w.State.CodeBuffer.Content.drop w.State.CodeBuffer.Dot
                  Dot := w.State.CodeBuffer.Dot - decodeLastRuneSize
                    (w.State.CodeBuffer.Content.take w.State.CodeBuffer.Dot) } } } := by
          unfold stepW Handle
          dsimp only
          unfold handleKeyEvent
          rw [if_neg hpst', if_neg (by decide), if_pos rfl]
        rw [hs]
        exact ⟨hbuf.backspace, ValidUtf8.nil, hpb, fun _ => List.nil_suffix⟩
      by_cases hfg : (k.isFuncKey || !cfg.IsGraphic k.Rune.toNat) = true
      · have hs : stepW cfg w (Event.key k) = w.resetInserts := by
          unfold stepW Handle
          dsimp only
          unfold handleKeyEvent
          rw [if_neg hpst', if_neg h10, if_neg hbk, if_pos hfg]
        rw [hs]
        exact ⟨hbuf, ValidUtf8.nil, hpb, fun _ => List.nil_suffix⟩
      · -- graphic insertion
        have hk : k.isFuncKey = false := by
          rcases Bool.eq_false_or_eq_true k.isFuncKey with h | h
          · exact absurd (by rw [h]; rfl) hfg
          · exact h
        have hg : cfg.IsGraphic k.Rune.toNat = true := by
          rcases Bool.eq_false_or_eq_true (cfg.IsGraphic k.Rune.toNat) with h | h
          · exact h
          · exact absurd (by rw [hk, h]; rfl) hfg
        have hpf : w.pasting = false := by
          rcases Bool.eq_false_or_eq_true w.pasting with h | h
          · exact absurd h hpst
          · exact h
        have hshape := handleKeyEvent_graphic_eq cfg w k hpf hk hg h10 hbk
        dsimp only at hshape
        have hw1State :
            (if w.lastCodeBuffer = w.State.CodeBuffer then w else w.resetInserts).State
              = w.State := by
          split <;> rfl
        have hw1ins :
            (if w.lastCodeBuffer = w.State.CodeBuffer then w else w.resetInserts).inserts
              = (if w.lastCodeBuffer = w.State.CodeBuffer then w.inserts else []) := by
          split <;> rfl
        have hw1pst :
            (if w.lastCodeBuffer = w.State.CodeBuffer then w else w.resetInserts).pasting
              = w.pasting := by
          split <;> rfl
        have hw1pb :
            (if w.lastCodeBuffer = w.State.CodeBuffer then w
              else w.resetInserts).pasteBuffer = w.pasteBuffer := by
          split <;> rfl
        rw [hw1State, hw1ins, ← insertedRun] at hshape
        have hsw : stepW cfg w (Event.key k) = (handleKeyEvent cfg w k).w := rfl
        have hvins : ValidUtf8 (insertedRun w k) := by
          unfold insertedRun
          split
          · exact hins.append (ValidUtf8.encode _)
          · exact ValidUtf8.nil.append (ValidUtf8.encode _)
        have hbuf' : BufferOK
            (w.State.CodeBuffer.insertAtDot (encodeRune k.Rune.toNat)) :=
          hbuf.insertAtDot (ValidUtf8.encode _)
        have hinsSuf : insertedRun w k <:+
            (w.State.CodeBuffer.insertAtDot (encodeRune k.Rune.toNat)).Content.take
              (w.State.CodeBuffer.insertAtDot (encodeRune k.Rune.toNat)).Dot := by
          obtain ⟨htk, -⟩ :=
            insertAtDot_take_drop w.State.CodeBuffer (encodeRune k.Rune.toNat)
              hbuf.dot_le
          rw [htk]
          unfold insertedRun
          split
          · exact suffix_append_right (htrack (by assumption))
          · rw [List.nil_append]
            exact List.suffix_append _ _
        by_cases hpick :
            0 < (pickAbbr (insertedRun w k) cfg.Abbreviations).1.length
        · obtain ⟨-, -, hfirst⟩ :=
            pickAbbrGo_spec (insertedRun w k) cfg.Abbreviations ([], [])
          rw [← pickAbbr_eq_go] at hfirst
          rcases hfirst with heq | ⟨l1, l2, hdecomp, hsufpick, -, -⟩
          · rw [heq] at hpick
            simp at hpick
          have hmem : pickAbbr (insertedRun w k) cfg.Abbreviations ∈
              cfg.Abbreviations := by
            have h2 : pickAbbr (insertedRun w k) cfg.Abbreviations ∈
                l1 ++ pickAbbr (insertedRun w k) cfg.Abbreviations :: l2 :=
              List.mem_append_right _ (List.mem_cons_self _ _)
            rw [← hdecomp] at h2
            exact h2
          obtain ⟨hva, hvf⟩ := hcfg.1 _ hmem
          rw [hsw, hshape, if_pos hpick]
          refine ⟨?_, ValidUtf8.nil, by rw [hw1pb]; exact hpb, fun _ => List.nil_suffix⟩
          exact hbuf'.expand hva hvf (hsufpick.trans hinsSuf)
        · rw [hsw, hshape, if_neg hpick]
          refine ⟨hbuf', hvins, by rw [hw1pb]; exact hpb, fun _ => hinsSuf⟩


/-- The widget invariant is preserved along any event sequence. -/
lemma WInv_run (cfg : Config) (w : widget) (es : List Event)
    (hcfg : ConfigOK cfg) (hw : WInv w) : WInv (runW cfg w es) := by
  induction es generalizing w with
  | nil => exact hw
  | cons e es ih => exact ih _ (WInv_step cfg w e hcfg hw)

/-- Claim C4: starting from a buffer satisfying the invariant (under a
well-formed configuration: abbreviations, expansions and quoted text
are valid encoded text, as spec §4.1 and §7 require of the caller) and
applying any sequence of handled events — graphic-key insertion,
backspace, abbreviation expansion, paste insertion, submit — dot stays
within `[0, length(content)]` and on a UTF-8 codepoint boundary, never
inside a multi-byte encoded character. -/
theorem dot_invariant (cfg : Config) (buf : CodeBuffer) (es : List Event)
    (hcfg : ConfigOK cfg) (hbuf : BufferOK buf) :
    BufferOK (runW cfg (newWithState buf) es).State.CodeBuffer ∧
      (runW cfg (newWithState buf) es).State.CodeBuffer.Dot ≤
        (runW cfg (newWithState buf) es).State.CodeBuffer.Content.length := by
  have h0 : WInv (newWithState buf) :=
    ⟨hbuf, ValidUtf8.nil, ValidUtf8.nil, fun _ => List.nil_suffix⟩
  have h := WInv_run cfg (newWithState buf) es hcfg h0
  exact ⟨h.1, h.1.dot_le⟩

lemma configOK_cfgEx : ConfigOK cfgEx := by
  constructor
  · intro p hp
    simp only [cfgEx, List.mem_cons, List.not_mem_nil, or_false] at hp
    rcases hp with rfl | rfl
    · exact ⟨⟨[101, 120], by decide⟩,
        ⟨[101, 120, 97, 109, 112, 108, 101], by decide⟩⟩
    · exact ⟨⟨[120], by decide⟩,
        ⟨[101, 120, 99, 104, 97, 110, 103, 101], by decide⟩⟩
  · intro s hs
    exact hs

theorem dot_invariant_witness :
    (ConfigOK cfgEx ∧ BufferOK { Content := [], Dot := 0 }) ∧
      BufferOK (runW cfgEx (newWithState { Content := [], Dot := 0 })
          [Event.key (K 101), Event.key (K 120)]).State.CodeBuffer :=
  ⟨⟨configOK_cfgEx, ⟨[], [], rfl, rfl⟩⟩,
    (dot_invariant cfgEx { Content := [], Dot := 0 }
        [Event.key (K 101), Event.key (K 120)] configOK_cfgEx ⟨[], [], rfl, rfl⟩).1⟩

end Elvish
